import Mathlib

/-!
Verification of the oauth-introspection middleware library.

The Go sources are shallowly embedded:

* Go maps (`url.Values`, `http.Header`, decoded JSON objects) are modelled
  as association lists `List (String × α)` with Go-map access semantics
  (`getVal`, `setVal`, `delVal`).
* JSON documents are modelled by the inductive type `Json` (numbers are
  modelled as integers; no claim depends on non-integral numbers).
* Fallible Go functions returning `(T, error)` are modelled as
  `Option`-valued functions (`none` is a non-nil error).
* The in-memory cache (`cache.go`), whose behaviour depends on the
  interleaving of `Store` calls with `time.AfterFunc` eviction tasks, is
  modelled as an explicit state machine over a discrete clock.

The repository contains two variants of the package (an original
single-file version and a refactored family of files, the latter being the
one its tests compile against).  The original decoder, middleware and
discovery helper are embedded in namespace `Intro`; the refactored family
in namespace `Core`.
-/

/-- Go-map lookup on an association list: first binding wins. -/
def getVal {κ α : Type} [DecidableEq κ] : List (κ × α) → κ → Option α
  | [], _ => none
  | kv :: rest, key => if kv.1 = key then some kv.2 else getVal rest key

/-- Go-map insertion/update on an association list: replaces the first
binding of the key, appends a fresh binding otherwise. -/
def setVal {κ α : Type} [DecidableEq κ] : List (κ × α) → κ → α → List (κ × α)
  | [], key, v => [(key, v)]
  | kv :: rest, key, v =>
    if kv.1 = key then (key, v) :: rest else kv :: setVal rest key v

/-- Go `delete` on an association list: removes every binding of the key. -/
def delVal {κ α : Type} [DecidableEq κ] : List (κ × α) → κ → List (κ × α)
  | [], _ => []
  | kv :: rest, key =>
    if kv.1 = key then delVal rest key else kv :: delVal rest key

/-- Keys of an association list are pairwise distinct (true of any list
obtained from a Go map). -/
def NodupKeys {κ α : Type} (m : List (κ × α)) : Prop :=
  (m.map Prod.fst).Nodup

instance {κ α : Type} [DecidableEq κ] (m : List (κ × α)) : Decidable (NodupKeys m) := by
  unfold NodupKeys; infer_instance

/-- Embedding of the Go idiom `out := make(...); for k, v := range m
\x7b out[k] = v \x7d`: fold Go-map insertion of every entry into an
initially empty map. -/
def copyVals {κ α : Type} [DecidableEq κ] (m : List (κ × α)) : List (κ × α) :=
  m.foldl (fun acc kv => setVal acc kv.1 kv.2) []

/-- Shallow model of a JSON document.  Numbers are modelled as integers:
no claim in this development depends on fractional numeric payloads. -/
inductive Json : Type where
  | null : Json
  | bool : Bool → Json
  | num : Int → Json
  | str : String → Json
  | arr : List Json → Json
  | obj : List (String × Json) → Json

/-- Go `json.Unmarshal` of a raw message into a `*bool` currently holding
`cur`: succeeds on a JSON boolean, and — per `encoding/json` — treats JSON
null as a no-op success that leaves the target unchanged; anything else is
an error. -/
def unmarshalBool (cur : Bool) : Json → Option Bool
  | .bool b => some b
  | .null => some cur
  | _ => none

/-- Go `json.Unmarshal` of a raw message into a `*string` currently
holding `cur`: succeeds on a JSON string, JSON null is a no-op success. -/
def unmarshalStr (cur : String) : Json → Option String
  | .str s => some s
  | .null => some cur
  | _ => none

/-- Go `json.Unmarshal` of a raw message into an `*int` currently holding
`cur`: succeeds on a JSON (integral) number, JSON null is a no-op
success. -/
def unmarshalInt (cur : Int) : Json → Option Int
  | .num n => some n
  | .null => some cur
  | _ => none

namespace Core

/-- Result of the refactored decoder: `active` plus all remaining
top-level fields kept raw (`Result` with `Optionals` in the source). -/
structure Result where
  Active : Bool
  Optionals : List (String × Json)

/-- Embedding of the refactored `extractIntrospectResult`: decode the body
into a raw-message map, then, if an `active` field is present, unmarshal it
into the zero-valued `Active` (a boolean succeeds, null is Go's no-op
success leaving `false`, anything else errors) and delete it from the map;
every other field stays in `Optionals` untouched.  A body that is not a
JSON object fails the initial decode.  Note that in this variant a body
with no `active` field decodes successfully, with `Active` left at its
zero value `false`. -/
def extractIntrospectResult (j : Json) : Option Result :=
  match j with
  | .obj fields =>
    match getVal fields "active" with
    | some v =>
      match unmarshalBool false v with
      | some b => some ⟨b, delVal fields "active"⟩
      | none => none
    | none => some ⟨false, fields⟩
  | _ => none

/-- Multi-valued string maps, modelling both `url.Values` and
`http.Header`. -/
abbrev Values := List (String × List String)

/-- Embedding of the option-relevant part of `Options`: the form body, the
header set and the target endpoint.  The HTTP client and the cache wiring
are modelled separately (the cache is explicit state of
`introspectionResult`). -/
structure Options where
  body : Values
  header : Values
  endpoint : String

/-- Embedding of `WithAddedHeaders`: every supplied binding is added only
if its key (compared by Go map equality, i.e. exact string equality) is
not already bound. -/
def WithAddedHeaders (h : Values) : Options → Options :=
  fun opt =>
    { opt with
      header := h.foldl
        (fun acc kv => if (getVal acc kv.1).isSome then acc else acc ++ [kv])
        opt.header }

/-- Embedding of `WithAddedBody`: identical first-write-wins merge into the
form body. -/
def WithAddedBody (b : Values) : Options → Options :=
  fun opt =>
    { opt with
      body := b.foldl
        (fun acc kv => if (getVal acc kv.1).isSome then acc else acc ++ [kv])
        opt.body }

/-- The default form body from `makeOptions`. -/
def defaultBody : Values :=
  [("token", [""]), ("token_type_hint", ["access_token"])]

/-- The default header set from `makeOptions`. -/
def defaultHeader : Values :=
  [("Content-Type", ["application/x-www-form-urlencoded"]),
   ("Accept", ["application/json"])]

/-- Embedding of `makeOptions`: start from the defaults and apply the
supplied option functions in order. -/
def makeOptions (endpoint : String) (opts : List (Options → Options)) : Options :=
  opts.foldl (fun opt apply => apply opt) ⟨defaultBody, defaultHeader, endpoint⟩

/-- The bearer marker `Bearer ` checked by `strings.HasPrefix`. -/
def bearerMarker : List Char := "Bearer ".toList

/-- Embedding of the header arm of `getTokenFromRequest` (lines 46-52):
strip the mandatory `Bearer ` marker, empty string when it is absent.
Strings are modelled as character lists; `hd[len("Bearer "):]` is
`List.drop 7`. -/
def bearerFromHeader (authorization : List Char) : List Char :=
  if bearerMarker.isPrefixOf authorization then authorization.drop 7 else []

/-- Embedding of `getTokenFromRequest`.  Its two inputs are the value of
the `access_token` POST form field and the value of the `Authorization`
header of the inbound request.  The source consults the form field first
and falls back to the header only when the form field is empty. -/
def getTokenFromRequest (postFormAccessToken : List Char) (authorization : List Char) : List Char :=
  if postFormAccessToken ≠ [] then postFormAccessToken
  else bearerFromHeader authorization

/-- Embedding of the body-construction step of `introspect`: copy the
configured form body into a fresh map, then `Set` the `token` field of the
copy to the actual credential.  The configured map itself is only read. -/
def introspectBody (opt : Options) (token : String) : Values :=
  setVal (copyVals opt.body) "token" [token]

/-- Embedding of `introspect` as far as the outbound request it composes:
the final body, the header set and the endpoint, paired with the
configuration state as it is left after the call (the source mutates only
the fresh copy, so the configuration comes back unchanged). -/
def introspect (opt : Options) (token : String) :
    (Values × Values × String) × Options :=
  ((introspectBody opt token, opt.header, opt.endpoint), opt)

/-- Outcome of one run of `introspectionResult`: the result/error pair,
the cache state it leaves behind and how many remote introspection calls
it performed. -/
structure PipelineOutcome where
  res : Option Result
  isErr : Bool
  cacheAfter : Option (List (String × Result))
  remoteCalls : Nat

/-- Embedding of `introspectionResult`: with a configured cache, a hit
returns the cached result with no remote call; otherwise the remote client
is invoked once (its outcome is the oracle argument `remote`, `none`
standing for a non-nil error) and the result is stored only when the call
succeeded.  The cache is passed and returned explicitly as the token-to-
result map; entry expiry is modelled separately by `CacheM`. -/
def introspectionResult (token : String) (cache : Option (List (String × Result)))
    (remote : Option Result) : PipelineOutcome :=
  match cache with
  | some st =>
    match getVal st token with
    | some r => ⟨some r, false, some st, 0⟩
    | none =>
      match remote with
      | some r => ⟨some r, false, some (setVal st token r), 1⟩
      | none => ⟨none, true, some st, 1⟩
  | none =>
    match remote with
    | some r => ⟨some r, false, none, 1⟩
    | none => ⟨none, true, none, 1⟩

/-- The well-known discovery suffix appended to the issuer. -/
def discoveryPath : List Char := ".well-known/openid-configuration".toList

/-- Embedding of the URI-construction prefix of `EndpointFromDiscovery`
(refactored variant): an explicit panic on the empty issuer (modelled as
`none`), otherwise a `/` is appended unless already present and the
discovery path is attached.  The subsequent GET request is a pure function
of this URI and is out of scope. -/
def discoveryURI (iss : List Char) : Option (List Char) :=
  if iss = [] then none
  else some ((if iss.getLast? = some '/' then iss else iss ++ ['/']) ++ discoveryPath)

end Core

namespace Intro

/-- Result of the original decoder (`introspect.go`): well-known RFC 7662
fields are decoded into typed fields, the remaining raw messages are kept
in `Additional`. -/
structure Result where
  Active : Bool
  Scope : List String
  ClientID : String
  Username : String
  TokenType : String
  EXP : Int
  IAT : Int
  NBF : Int
  SUB : String
  AUD : String
  ISS : String
  JTI : String
  Additional : List (String × Json)

/-- The Go zero value of `Result`, which the decoder starts from. -/
def Result.zero : Result :=
  ⟨false, [], "", "", "", 0, 0, 0, "", "", "", "", []⟩

/-- One optional-field step of the original decoder: if `key` is present
it must parse (otherwise the whole decode errors) and is deleted from the
raw map; if absent the running value is kept. -/
def takeField {α : Type} (jObj : List (String × Json)) (key : String)
    (parse : Json → Option α) (dflt : α) : Option (α × List (String × Json)) :=
  match getVal jObj key with
  | none => some (dflt, jObj)
  | some v =>
    match parse v with
    | none => none
    | some a => some (a, delVal jObj key)

/-- The optional-field section of the original `extractIntrospectResult`
(`introspect.go` lines 194-283): each known RFC 7662 field is unmarshalled
into its zero-valued target (so JSON null leaves the zero value) and
removed from the raw map in source order; `scope` is additionally split on
spaces after unmarshalling; whatever remains becomes `Additional`. -/
def decodeKnownFields (active : Bool) (jObj : List (String × Json)) : Option Result := do
  let (scope, jObj) ← takeField jObj "scope"
      (fun v => (unmarshalStr "" v).map (fun s => s.splitOn " ")) Result.zero.Scope
  let (clientId, jObj) ← takeField jObj "client_id" (unmarshalStr "") Result.zero.ClientID
  let (username, jObj) ← takeField jObj "username" (unmarshalStr "") Result.zero.Username
  let (tokenType, jObj) ← takeField jObj "token_type" (unmarshalStr "") Result.zero.TokenType
  let (exp, jObj) ← takeField jObj "exp" (unmarshalInt 0) Result.zero.EXP
  let (iat, jObj) ← takeField jObj "iat" (unmarshalInt 0) Result.zero.IAT
  let (nbf, jObj) ← takeField jObj "nbf" (unmarshalInt 0) Result.zero.NBF
  let (sub, jObj) ← takeField jObj "sub" (unmarshalStr "") Result.zero.SUB
  let (aud, jObj) ← takeField jObj "aud" (unmarshalStr "") Result.zero.AUD
  let (iss, jObj) ← takeField jObj "iss" (unmarshalStr "") Result.zero.ISS
  let (jti, jObj) ← takeField jObj "jti" (unmarshalStr "") Result.zero.JTI
  some ⟨active, scope, clientId, username, tokenType, exp, iat, nbf,
        sub, aud, iss, jti, jObj⟩

/-- Embedding of the original `extractIntrospectResult` (`introspect.go`
lines 179-284): the body must be a JSON object and the `active` field must
be present (lines 186-192); its raw message is unmarshalled into the
zero-valued `Active`, so a boolean is taken as is, JSON null is Go's no-op
success leaving `false`, and any other shape errors.  Then the known
optional fields are decoded; the remainder (including the `active` entry,
which this variant never deletes) becomes `Additional`. -/
def extractIntrospectResult (j : Json) : Option Result := do
  let jObj ← match j with
    | .obj m => some m
    | _ => none
  let av ← getVal jObj "active"
  let active ← unmarshalBool false av
  decodeKnownFields active jObj

/-- Embedding of the URI-construction prefix of `EndpointFromDiscovery`
(original variant, `introspect.go` lines 66-71): no empty-issuer guard, so
the indexing `iss[len(iss)-1]` panics on the empty issuer (modelled as the
`none` branch of `getLast?`). -/
def discoveryURI (iss : List Char) : Option (List Char) :=
  match iss.getLast? with
  | none => none
  | some c =>
    some ((if c = '/' then iss else iss ++ ['/']) ++ Core.discoveryPath)

end Intro

/-! ### The in-memory cache as a state machine

`cache.go` couples a results map with one `time.AfterFunc` eviction task
per `Store`.  A timer is identified by the order in which it was created.
Its lifecycle mirrors Go's:

* `scheduled` — pending; `Stop` still prevents the callback.
* `stopped` — `Stop` succeeded before the deadline; the callback never runs.
* `fired` — the deadline passed and the runtime started the callback
  goroutine; from this point `Stop` has no effect and the callback body
  (which runs under the cache lock) is still due.
* `done` — the callback body has executed.

All lock-protected critical sections (`Store`, the eviction body) are
single atomic events, which is exactly what the mutex guarantees. -/

/-- Lifecycle state of one `time.AfterFunc` eviction task. -/
inductive TStatus : Type where
  | scheduled : TStatus
  | stopped : TStatus
  | fired : TStatus
  | done : TStatus
  deriving DecidableEq

/-- One eviction timer: the key whose entry it should evict, its absolute
deadline, and its lifecycle state. -/
structure TimerM where
  key : String
  deadline : Nat
  status : TStatus

/-- State of one `inMemoryCache` plus the discrete clock: the results map,
the pending-timer table `expiry`, all timers ever created (indexed by
creation order), the clock, and the next fresh timer id. -/
structure CacheM (α : Type) where
  results : List (String × α)
  expiry : List (String × Nat)
  timers : List (Nat × TimerM)
  clock : Nat
  nextId : Nat

/-- The freshly constructed cache of `NewInMemoryCache`. -/
def initCache {α : Type} : CacheM α := ⟨[], [], [], 0, 0⟩

/-- Events of the cache system: a `Store` critical section, the runtime
firing a timer whose deadline has passed, the eviction callback body
running (its own critical section), and the clock advancing one unit. -/
inductive CEvent (α : Type) : Type where
  | store : String → α → Nat → CEvent α
  | fire : Nat → CEvent α
  | runEvict : Nat → CEvent α
  | tick : CEvent α

/-- Go `timer.Stop()`: prevents the callback only while the timer is still
`scheduled`; a timer that has already fired stays fired. -/
def stopTimer (t : TimerM) : TimerM :=
  if t.status = .scheduled then { t with status := .stopped } else t

/-- One atomic step of the cache system, following `cache.go`:

* `store key res exp` — write the result, `Stop` the previously pending
  timer for the key if any, then schedule a fresh timer with deadline
  `clock + exp` and record it in `expiry` (the body of
  `inMemoryCache.Store`).
* `fire id` — a `scheduled` timer whose deadline has been reached becomes
  `fired`; the runtime never fires a timer early, and `fire` on an
  unknown, stopped or finished timer does nothing.
* `runEvict id` — the callback body of a `fired` timer runs: it deletes
  the key's entry from `results` and from `expiry` unconditionally, as the
  closure in `Store` does.
* `tick` — the clock advances. -/
def stepCache {α : Type} (s : CacheM α) : CEvent α → CacheM α
  | .store key res exp =>
    let timers1 :=
      match getVal s.expiry key with
      | some tid =>
        match getVal s.timers tid with
        | some t => setVal s.timers tid (stopTimer t)
        | none => s.timers
      | none => s.timers
    { results := setVal s.results key res
      expiry := setVal s.expiry key s.nextId
      timers := setVal timers1 s.nextId ⟨key, s.clock + exp, .scheduled⟩
      clock := s.clock
      nextId := s.nextId + 1 }
  | .fire id =>
    match getVal s.timers id with
    | some t =>
      if t.status = .scheduled ∧ t.deadline ≤ s.clock then
        { s with timers := setVal s.timers id { t with status := .fired } }
      else s
    | none => s
  | .runEvict id =>
    match getVal s.timers id with
    | some t =>
      if t.status = .fired then
        { s with
          results := delVal s.results t.key
          expiry := delVal s.expiry t.key
          timers := setVal s.timers id { t with status := .done } }
      else s
    | none => s
  | .tick => { s with clock := s.clock + 1 }

/-- Run a whole interleaving of cache events from a starting state. -/
def runCache {α : Type} (s : CacheM α) (evs : List (CEvent α)) : CacheM α :=
  evs.foldl stepCache s

/-- An event that is not a `Store` critical section: clock advance, timer
firing or an eviction callback body. -/
def noStore {α : Type} : CEvent α → Bool
  | .store _ _ _ => false
  | _ => true

/-! ### Association-list lemmas -/

theorem getVal_setVal_self {κ α : Type} [DecidableEq κ] (m : List (κ × α)) (k : κ) (v : α) :
    getVal (setVal m k v) k = some v := by
  induction m with
  | nil => simp [setVal, getVal]
  | cons hd tl ih =>
    by_cases h : hd.1 = k
    · simp [setVal, getVal, h]
    · simp only [setVal, h, if_false]
      simpa [getVal, h] using ih

theorem getVal_setVal_other {κ α : Type} [DecidableEq κ] (m : List (κ × α)) (k k' : κ) (v : α)
    (hne : k' ≠ k) : getVal (setVal m k v) k' = getVal m k' := by
  induction m with
  | nil => simp [setVal, getVal, Ne.symm hne]
  | cons hd tl ih =>
    by_cases h : hd.1 = k
    · subst h
      simp [setVal, getVal, Ne.symm hne]
    · simp only [setVal, h, if_false]
      by_cases h2 : hd.1 = k'
      · simp [getVal, h2]
      · simp [getVal, h2, ih]

theorem getVal_delVal_self {κ α : Type} [DecidableEq κ] (m : List (κ × α)) (k : κ) :
    getVal (delVal m k) k = none := by
  induction m with
  | nil => simp [delVal, getVal]
  | cons hd tl ih =>
    by_cases h : hd.1 = k
    · simpa [delVal, h] using ih
    · simpa [delVal, getVal, h] using ih

theorem getVal_delVal_other {κ α : Type} [DecidableEq κ] (m : List (κ × α)) (k k' : κ)
    (hne : k' ≠ k) : getVal (delVal m k) k' = getVal m k' := by
  induction m with
  | nil => simp [delVal, getVal]
  | cons hd tl ih =>
    by_cases h : hd.1 = k
    · subst h
      simpa [delVal, getVal, Ne.symm hne] using ih
    · by_cases h2 : hd.1 = k'
      · simp [delVal, getVal, h, h2, hne]
      · simpa [delVal, getVal, h, h2] using ih

theorem setVal_of_getVal_none {κ α : Type} [DecidableEq κ] (m : List (κ × α)) (k : κ) (v : α)
    (h : getVal m k = none) : setVal m k v = m ++ [(k, v)] := by
  induction m with
  | nil => simp [setVal]
  | cons hd tl ih =>
    by_cases hk : hd.1 = k
    · simp [getVal, hk] at h
    · simp only [getVal, hk, if_false] at h
      simp [setVal, hk, ih h]

theorem getVal_append_of_none {κ α : Type} [DecidableEq κ] (a b : List (κ × α)) (k : κ)
    (h : getVal a k = none) : getVal (a ++ b) k = getVal b k := by
  induction a with
  | nil => simp
  | cons hd tl ih =>
    by_cases hk : hd.1 = k
    · simp [getVal, hk] at h
    · simp only [getVal, hk, if_false] at h
      simpa [getVal, hk] using ih h

theorem getVal_append_of_some {κ α : Type} [DecidableEq κ] (a b : List (κ × α)) (k : κ) (v : α)
    (h : getVal a k = some v) : getVal (a ++ b) k = some v := by
  induction a with
  | nil => simp [getVal] at h
  | cons hd tl ih =>
    by_cases hk : hd.1 = k
    · simp only [getVal, hk, if_true] at h ⊢
      simpa [getVal, hk] using h
    · simp only [getVal, hk, if_false] at h
      simpa [getVal, hk] using ih h

theorem foldl_setVal_fresh {κ α : Type} [DecidableEq κ] (m : List (κ × α)) :
    ∀ acc : List (κ × α), NodupKeys m → (∀ kv ∈ m, getVal acc kv.1 = none) →
      m.foldl (fun acc kv => setVal acc kv.1 kv.2) acc = acc ++ m := by
  induction m with
  | nil => intro acc _ _; simp
  | cons hd tl ih =>
    intro acc hnd hfresh
    have hhd : getVal acc hd.1 = none := hfresh hd (by simp)
    have hset : setVal acc hd.1 hd.2 = acc ++ [hd] := by
      simpa using setVal_of_getVal_none acc hd.1 hd.2 hhd
    have hnd' : NodupKeys tl := by
      simpa [NodupKeys] using (List.nodup_cons.mp hnd).2
    have hmem : hd.1 ∉ tl.map Prod.fst := by
      simpa [NodupKeys] using (List.nodup_cons.mp hnd).1
    have hfresh' : ∀ kv ∈ tl, getVal (acc ++ [hd]) kv.1 = none := by
      intro kv hkv
      have h1 : getVal acc kv.1 = none := hfresh kv (by simp [hkv])
      have h2 : hd.1 ≠ kv.1 := by
        intro heq
        exact hmem (heq ▸ List.mem_map_of_mem Prod.fst hkv)
      rw [getVal_append_of_none _ _ _ h1]
      simp [getVal, h2]
    calc (hd :: tl).foldl (fun acc kv => setVal acc kv.1 kv.2) acc
        = tl.foldl (fun acc kv => setVal acc kv.1 kv.2) (acc ++ [hd]) := by
          simp [List.foldl_cons, hset]
      _ = (acc ++ [hd]) ++ tl := ih (acc ++ [hd]) hnd' hfresh'
      _ = acc ++ (hd :: tl) := by simp

theorem copyVals_eq {κ α : Type} [DecidableEq κ] (m : List (κ × α)) (h : NodupKeys m) :
    copyVals m = m := by
  simpa [copyVals] using foldl_setVal_fresh m [] h (by intro kv _; simp [getVal])

/-! ### Claims about endpoint discovery (C9, C10) -/

/-- C9: the discovery URI built by `EndpointFromDiscovery` for an issuer
without a trailing slash equals the one built for the same issuer with a
trailing slash appended, so both resolve to the same discovered
introspection endpoint. -/
theorem c9_discovery_trailing_slash_invariant (iss : List Char)
    (h1 : iss ≠ []) (h2 : iss.getLast? ≠ some '/') :
    Core.discoveryURI iss = Core.discoveryURI (iss ++ ['/']) := by
  have hne : iss ++ ['/'] ≠ [] := by simp
  have hlast : (iss ++ ['/']).getLast? = some '/' := List.getLast?_concat iss
  simp [Core.discoveryURI, h1, h2, hne, hlast]

/-- C9 witness at the issuer `a`. -/
theorem c9_discovery_trailing_slash_invariant_witness :
    Core.discoveryURI ['a'] = Core.discoveryURI ['a', '/'] :=
  c9_discovery_trailing_slash_invariant ['a'] (by decide) (by decide)

/-- C10: both variants of `EndpointFromDiscovery` panic on the empty
issuer (the refactored one explicitly, the original one through the
out-of-bounds index), modelled as the `none` branch; consequently any
non-panicking execution started from a non-empty issuer. -/
theorem c10_empty_issuer_panics :
    Core.discoveryURI ([] : List Char) = none ∧
    Intro.discoveryURI ([] : List Char) = none ∧
    ∀ (iss r : List Char),
      (Core.discoveryURI iss = some r ∨ Intro.discoveryURI iss = some r) →
      iss ≠ [] := by
  refine ⟨rfl, rfl, ?_⟩
  rintro iss r (h | h) rfl <;> simp [Core.discoveryURI, Intro.discoveryURI] at h

/-- C10 witness: a non-panicking run of the canonical variant, with the
non-empty-issuer consequence instantiated at it. -/
theorem c10_empty_issuer_panics_witness :
    (['a'] : List Char) ≠ [] :=
  c10_empty_issuer_panics.2.2 ['a'] (['a'] ++ ['/'] ++ Core.discoveryPath) (Or.inl rfl)

/-! ### Claim C2: token extraction order -/

/-- C2 counterexample: with both a bearer header and the fallback POST
form field present, `getTokenFromRequest` returns the form-field
credential, not the header credential as the claim states. -/
theorem c2_counterexample :
    Core.getTokenFromRequest "formtok".toList "Bearer headtok".toList = "formtok".toList ∧
    "formtok".toList ≠ "headtok".toList ∧
    Core.bearerFromHeader "Bearer headtok".toList = "headtok".toList := by
  refine ⟨rfl, by decide, by decide⟩

/-- C2 (amended): token extraction applies the POST form field first and
the bearer header second; the header credential is used only when the form
field is empty. -/
theorem c2_form_field_applied_first (f h : List Char) :
    (f ≠ [] → Core.getTokenFromRequest f h = f) ∧
    (f = [] → Core.getTokenFromRequest f h = Core.bearerFromHeader h) := by
  constructor <;> intro hf <;> simp [Core.getTokenFromRequest, hf]

/-- C2 witness: the amended extraction order at concrete requests. -/
theorem c2_form_field_applied_first_witness :
    Core.getTokenFromRequest "ftok".toList "Bearer htok".toList = "ftok".toList ∧
    Core.getTokenFromRequest [] "Bearer htok".toList = Core.bearerFromHeader "Bearer htok".toList :=
  ⟨(c2_form_field_applied_first "ftok".toList "Bearer htok".toList).1 (by decide),
   (c2_form_field_applied_first [] "Bearer htok".toList).2 rfl⟩

/-! ### Claim C7: the outbound token field and the configuration frame -/

/-- C7: the outbound introspection body carries the actual credential in
its `token` field, every other field is exactly as configured, and the
configuration is left unchanged by the send (the source writes only to a
fresh copy of the configured body, so the configured placeholder survives). -/
theorem c7_token_overwritten_config_unchanged (opt : Core.Options) (token : String)
    (h : NodupKeys opt.body) :
    getVal (Core.introspectBody opt token) "token" = some [token] ∧
    (∀ k, k ≠ "token" → getVal (Core.introspectBody opt token) k = getVal opt.body k) ∧
    (Core.introspect opt token).2 = opt := by
  refine ⟨getVal_setVal_self _ _ _, ?_, rfl⟩
  intro k hk
  unfold Core.introspectBody
  rw [getVal_setVal_other _ _ _ _ hk, copyVals_eq _ h]

/-- C7 witness: the default configuration with a concrete credential. -/
theorem c7_token_overwritten_config_unchanged_witness :
    getVal (Core.introspectBody (Core.makeOptions "ep" []) "cred") "token" = some ["cred"] ∧
    getVal (Core.introspectBody (Core.makeOptions "ep" []) "cred") "token_type_hint" =
      some ["access_token"] :=
  have h := c7_token_overwritten_config_unchanged (Core.makeOptions "ep" []) "cred" (by decide)
  ⟨h.1, (h.2.1 "token_type_hint" (by decide)).trans (by decide)⟩

/-! ### Claim C4: first-write-wins option merge -/

/-- C4 counterexample: the merge of `WithAddedHeaders` compares keys by
exact Go map equality, not case-insensitively — a caller-supplied header
whose name differs from the built-in `Content-Type` default only in case
is added by the merge, where a case-insensitive first-write-wins merge
would have skipped it. -/
theorem c4_counterexample :
    (getVal Core.defaultHeader "Content-Type").isSome = true ∧
    "content-type".toList.map Char.toLower = "Content-Type".toList.map Char.toLower ∧
    getVal (Core.WithAddedHeaders [("content-type", ["text/plain"])]
        (Core.makeOptions "ep" [])).header "content-type" = some ["text/plain"] ∧
    getVal Core.defaultHeader "content-type" = none := by
  refine ⟨rfl, ?_, rfl, rfl⟩
  decide

/-- Merging extra bindings first-write-wins never disturbs a binding that
is already present under the exact same key. -/
theorem getVal_mergeFold {α : Type} (h : List (String × α)) :
    ∀ (base : List (String × α)) (k : String) (v : α), getVal base k = some v →
      getVal (h.foldl
        (fun acc kv => if (getVal acc kv.1).isSome then acc else acc ++ [kv]) base) k = some v := by
  induction h with
  | nil => intro base k v hv; exact hv
  | cons kv tl ih =>
    intro base k v hv
    by_cases hs : (getVal base kv.1).isSome = true
    · simp only [List.foldl_cons, hs, if_true]
      exact ih base k v hv
    · simp only [List.foldl_cons, hs, if_false]
      exact ih (base ++ [kv]) k v (getVal_append_of_some base [kv] k v hv)

/-- C4 (amended): caller-supplied headers and body fields never overwrite
a binding already present under the exact same key — first write wins —
but the key comparison of the merge is exact (case-sensitive) string
equality, so names differing from a default only in case are added as
distinct keys. -/
theorem c4_first_write_wins_exact_keys (extra : Core.Values) (opt : Core.Options)
    (k : String) (v : List String) :
    (getVal opt.header k = some v →
      getVal (Core.WithAddedHeaders extra opt).header k = some v) ∧
    (getVal opt.body k = some v →
      getVal (Core.WithAddedBody extra opt).body k = some v) :=
  ⟨fun hv => getVal_mergeFold extra opt.header k v hv,
   fun hv => getVal_mergeFold extra opt.body k v hv⟩

/-- C4 witness: colliding caller-supplied `Content-Type` and
`token_type_hint` entries do not override the built-in defaults. -/
theorem c4_first_write_wins_exact_keys_witness :
    getVal (Core.WithAddedHeaders [("Content-Type", ["text/plain"])]
        (Core.makeOptions "ep" [])).header "Content-Type" =
      some ["application/x-www-form-urlencoded"] ∧
    getVal (Core.WithAddedBody [("token_type_hint", ["refresh_token"])]
        (Core.makeOptions "ep" [])).body "token_type_hint" =
      some ["access_token"] :=
  ⟨(c4_first_write_wins_exact_keys [("Content-Type", ["text/plain"])]
      (Core.makeOptions "ep" []) "Content-Type" ["application/x-www-form-urlencoded"]).1 rfl,
   (c4_first_write_wins_exact_keys [("token_type_hint", ["refresh_token"])]
      (Core.makeOptions "ep" []) "token_type_hint" ["access_token"]).2 rfl⟩

/-! ### Claim C8: tolerant decoding preserves extension fields -/

/-- C8: decoding a JSON object with a boolean `active` field succeeds,
decodes `active`, and preserves every other top-level field verbatim in
the extension mapping, retrievable under its original name (the `active`
entry itself is removed from the mapping). -/
theorem c8_extension_fields_preserved (fields : List (String × Json)) (b : Bool)
    (h : getVal fields "active" = some (Json.bool b)) :
    ∃ r, Core.extractIntrospectResult (Json.obj fields) = some r ∧
      r.Active = b ∧
      (∀ k, k ≠ "active" → getVal r.Optionals k = getVal fields k) ∧
      getVal r.Optionals "active" = none := by
  refine ⟨⟨b, delVal fields "active"⟩, ?_, rfl, ?_, ?_⟩
  · simp [Core.extractIntrospectResult, h, unmarshalBool]
  · intro k hk
    exact getVal_delVal_other fields "active" k hk
  · exact getVal_delVal_self fields "active"

/-- C8 witness: the two instances named by the specification — a body of
exactly `active: true` giving an empty extension mapping, and one extra
field surviving verbatim. -/
theorem c8_extension_fields_preserved_witness :
    Core.extractIntrospectResult (Json.obj [("active", Json.bool true)]) =
      some ⟨true, []⟩ ∧
    Core.extractIntrospectResult
        (Json.obj [("active", Json.bool true), ("extra", Json.str "x")]) =
      some ⟨true, [("extra", Json.str "x")]⟩ ∧
    (∃ r, Core.extractIntrospectResult
        (Json.obj [("active", Json.bool true), ("extra", Json.str "x")]) = some r ∧
      r.Active = true ∧
      (∀ k, k ≠ "active" →
        getVal r.Optionals k =
          getVal [("active", Json.bool true), ("extra", Json.str "x")] k) ∧
      getVal r.Optionals "active" = none) :=
  ⟨rfl, rfl,
   c8_extension_fields_preserved [("active", Json.bool true), ("extra", Json.str "x")] true rfl⟩

/-! ### Claim C1: a missing or mistyped `active` field is a decode error -/

/-- C1: the claim fails on the code.  Go's `json.Unmarshal` treats JSON
null as a no-op success that leaves the target's zero value in place, so
a response body of exactly `active: null` — valid JSON giving `active` a
non-boolean value — decodes successfully in both decoder variants,
yielding a Result with `Active == false`: exactly the false-but-successful
Result the claim rules out.  A body missing `active` does hit the cited
decoder's explicit error branch, and any non-null non-boolean `active`
fails the unmarshal, so null is the one shape that slips through. -/
theorem c1_null_active_decodes_to_false_success :
    Intro.extractIntrospectResult (Json.obj [("active", Json.null)]) =
      some ⟨false, [], "", "", "", 0, 0, 0, "", "", "", "", [("active", Json.null)]⟩ ∧
    Core.extractIntrospectResult (Json.obj [("active", Json.null)]) =
      some ⟨false, []⟩ ∧
    Intro.extractIntrospectResult (Json.obj []) = none ∧
    Intro.extractIntrospectResult (Json.obj [("active", Json.str "yes")]) = none :=
  ⟨rfl, rfl, rfl, rfl⟩

/-! ### Claim C6: cache hit, miss, and cache-on-success-only -/

/-- C6: with a cache configured, a hit returns the cached result with nil
error and no remote call; a miss performs exactly one remote call, and the
result is stored back if and only if the call succeeded — a failed call
leaves the cache untouched. -/
theorem c6_cache_on_success_only (token : String) (st : List (String × Core.Result))
    (remote : Option Core.Result) :
    (∀ r, getVal st token = some r →
      Core.introspectionResult token (some st) remote =
        ⟨some r, false, some st, 0⟩) ∧
    (getVal st token = none →
      (Core.introspectionResult token (some st) remote).remoteCalls = 1 ∧
      (∀ r, remote = some r →
        Core.introspectionResult token (some st) remote =
          ⟨some r, false, some (setVal st token r), 1⟩) ∧
      (remote = none →
        Core.introspectionResult token (some st) remote =
          ⟨none, true, some st, 1⟩)) := by
  constructor
  · intro r hr
    simp [Core.introspectionResult, hr]
  · intro hmiss
    refine ⟨?_, ?_, ?_⟩
    · cases remote <;> simp [Core.introspectionResult, hmiss]
    · intro r hr; subst hr; simp [Core.introspectionResult, hmiss]
    · intro hr; subst hr; simp [Core.introspectionResult, hmiss]

/-- C6 witness: a concrete hit with no remote call, a concrete successful
miss that is stored, and a concrete failed miss that is not cached. -/
theorem c6_cache_on_success_only_witness :
    Core.introspectionResult "t" (some [("t", ⟨true, []⟩)]) none =
      ⟨some ⟨true, []⟩, false, some [("t", ⟨true, []⟩)], 0⟩ ∧
    Core.introspectionResult "u" (some []) (some ⟨true, []⟩) =
      ⟨some ⟨true, []⟩, false, some [("u", ⟨true, []⟩)], 1⟩ ∧
    Core.introspectionResult "u" (some []) none =
      ⟨none, true, some [], 1⟩ :=
  ⟨(c6_cache_on_success_only "t" [("t", ⟨true, []⟩)] none).1 ⟨true, []⟩ rfl,
   ((c6_cache_on_success_only "u" [] (some ⟨true, []⟩)).2 rfl).2.1 ⟨true, []⟩ rfl,
   ((c6_cache_on_success_only "u" [] none).2 rfl).2.2 rfl⟩

/-! ### Cache state-machine lemmas -/

theorem runCache_nil {α : Type} (s : CacheM α) : runCache s [] = s := rfl

theorem runCache_cons {α : Type} (s : CacheM α) (e : CEvent α) (evs : List (CEvent α)) :
    runCache s (e :: evs) = runCache (stepCache s e) evs := rfl

theorem stepCache_clock_mono {α : Type} (s : CacheM α) (e : CEvent α) :
    s.clock ≤ (stepCache s e).clock := by
  cases e with
  | store k r x => simp [stepCache]
  | tick => simp [stepCache]
  | fire i =>
    cases h : getVal s.timers i with
    | none => simp [stepCache, h]
    | some t =>
      by_cases hc : t.status = TStatus.scheduled ∧ t.deadline ≤ s.clock
      · simp [stepCache, h, hc]
      · simp [stepCache, h, hc]
  | runEvict i =>
    cases h : getVal s.timers i with
    | none => simp [stepCache, h]
    | some t =>
      by_cases hc : t.status = TStatus.fired
      · simp [stepCache, h, hc]
      · simp [stepCache, h, hc]

theorem runCache_clock_mono {α : Type} (evs : List (CEvent α)) :
    ∀ s : CacheM α, s.clock ≤ (runCache s evs).clock := by
  induction evs with
  | nil => intro s; exact le_refl _
  | cons e rest ih =>
    intro s
    exact le_trans (stepCache_clock_mono s e) (ih (stepCache s e))

theorem stepCache_preserves_singleStore {α : Type} (k : String) (res : α) (d : Nat)
    (s : CacheM α) (e : CEvent α)
    (hres : s.results = [(k, res)]) (hexp : s.expiry = [(k, 0)])
    (htim : s.timers = [(0, ⟨k, d, TStatus.scheduled⟩)])
    (hclk : s.clock < d) (hns : noStore e = true) :
    (stepCache s e).results = [(k, res)] ∧ (stepCache s e).expiry = [(k, 0)] ∧
    (stepCache s e).timers = [(0, ⟨k, d, TStatus.scheduled⟩)] := by
  cases e with
  | store k2 r2 x => simp [noStore] at hns
  | tick => exact ⟨hres, hexp, htim⟩
  | fire i =>
    have hid : stepCache s (CEvent.fire i) = s := by
      by_cases hi : (0 : Nat) = i
      · have hg : getVal s.timers i = some ⟨k, d, TStatus.scheduled⟩ := by
          rw [htim]; simp [getVal, hi]
        simp only [stepCache]
        rw [hg]
        simp only [ite_eq_right_iff]
        intro hc
        exact absurd hc.2 (Nat.not_le.mpr hclk)
      · have hg : getVal s.timers i = none := by
          rw [htim]; simp [getVal, hi]
        simp only [stepCache]
        rw [hg]
    rw [hid]
    exact ⟨hres, hexp, htim⟩
  | runEvict i =>
    have hid : stepCache s (CEvent.runEvict i) = s := by
      by_cases hi : (0 : Nat) = i
      · have hg : getVal s.timers i = some ⟨k, d, TStatus.scheduled⟩ := by
          rw [htim]; simp [getVal, hi]
        simp only [stepCache]
        rw [hg]
        simp
      · have hg : getVal s.timers i = none := by
          rw [htim]; simp [getVal, hi]
        simp only [stepCache]
        rw [hg]
    rw [hid]
    exact ⟨hres, hexp, htim⟩

theorem runCache_no_store_keeps_entry {α : Type} (k : String) (res : α) (d : Nat)
    (evs : List (CEvent α)) (hns : ∀ e ∈ evs, noStore e = true) :
    ∀ s : CacheM α, s.results = [(k, res)] → s.expiry = [(k, 0)] →
      s.timers = [(0, ⟨k, d, TStatus.scheduled⟩)] →
      (runCache s evs).clock < d →
      (runCache s evs).results = [(k, res)] := by
  induction evs with
  | nil => intro s h1 _ _ _; simpa [runCache] using h1
  | cons e rest ih =>
    intro s h1 h2 h3 hclk
    rw [runCache_cons] at hclk ⊢
    have hsclk : s.clock < d :=
      lt_of_le_of_lt
        (le_trans (stepCache_clock_mono s e) (runCache_clock_mono rest (stepCache s e)))
        hclk
    have hP := stepCache_preserves_singleStore k res d s e h1 h2 h3 hsclk
      (hns e (by simp))
    exact ih (fun x hx => hns x (by simp [hx])) (stepCache s e) hP.1 hP.2.1 hP.2.2 hclk

theorem runCache_replicate_tick {α : Type} (t : Nat) :
    ∀ s : CacheM α, runCache s (List.replicate t CEvent.tick) =
      { s with clock := s.clock + t } := by
  induction t with
  | zero => intro s; cases s; simp [runCache]
  | succ n ih =>
    intro s
    rw [List.replicate_succ, runCache_cons, ih]
    cases s
    simp [stepCache]
    omega

theorem stepCache_store_init {α : Type} (k : String) (res : α) (d : Nat) :
    stepCache (initCache : CacheM α) (CEvent.store k res d) =
      ⟨[(k, res)], [(k, 0)], [(0, ⟨k, d, TStatus.scheduled⟩)], 0, 1⟩ := by
  simp [stepCache, initCache, getVal, setVal]

/-! ### Claim C5: TTL semantics of the cache -/

/-- C5: after a single `Store` of a token with TTL `d` into a fresh cache,
`Get` returns the stored result in every interleaving of clock advances,
timer firings and eviction runs whose elapsed time stays below `d` (the
timer cannot fire early), and returns none once the elapsed time reaches
`d` and the scheduled eviction task has executed (firing and running at
the deadline is the timely schedule; the scheduler-granularity delay
between deadline and execution is the event gap). -/
theorem c5_ttl_fresh_below_evicted_at_deadline (k : String) (res : Core.Result)
    (d t : Nat) (evs : List (CEvent Core.Result))
    (hns : ∀ e ∈ evs, noStore e = true) :
    ((runCache (stepCache initCache (CEvent.store k res d)) evs).clock < d →
      getVal (runCache (stepCache initCache (CEvent.store k res d)) evs).results k =
        some res) ∧
    (d ≤ t →
      getVal (runCache (stepCache initCache (CEvent.store k res d))
        (List.replicate t CEvent.tick ++ [CEvent.fire 0, CEvent.runEvict 0])).results k =
        none) := by
  rw [stepCache_store_init]
  constructor
  · intro hclk
    have h := runCache_no_store_keeps_entry k res d evs hns
      ⟨[(k, res)], [(k, 0)], [(0, ⟨k, d, TStatus.scheduled⟩)], 0, 1⟩
      rfl rfl rfl hclk
    simp [h, getVal]
  · intro hd
    rw [runCache]
    rw [List.foldl_append]
    rw [show List.foldl stepCache
        (⟨[(k, res)], [(k, 0)], [(0, ⟨k, d, TStatus.scheduled⟩)], 0, 1⟩ : CacheM Core.Result)
        (List.replicate t CEvent.tick) =
      runCache ⟨[(k, res)], [(k, 0)], [(0, ⟨k, d, TStatus.scheduled⟩)], 0, 1⟩
        (List.replicate t CEvent.tick) from rfl]
    rw [runCache_replicate_tick]
    have hg : getVal ([(0, (⟨k, d, TStatus.scheduled⟩ : TimerM))] : List (Nat × TimerM)) 0 =
        some ⟨k, d, TStatus.scheduled⟩ := by simp [getVal]
    simp [stepCache, getVal, setVal, delVal, stopTimer, hd]

/-- C5 witness: a concrete store with TTL 2, observed after one clock
tick (still present) and after the deadline with the eviction executed
(gone). -/
theorem c5_ttl_fresh_below_evicted_at_deadline_witness :
    getVal (runCache (stepCache initCache (CEvent.store "t" (⟨true, []⟩ : Core.Result) 2))
      [CEvent.tick]).results "t" = some (⟨true, []⟩ : Core.Result) ∧
    getVal (runCache (stepCache initCache (CEvent.store "t" (⟨true, []⟩ : Core.Result) 2))
      (List.replicate 2 CEvent.tick ++ [CEvent.fire 0, CEvent.runEvict 0])).results "t" =
      none :=
  have h := c5_ttl_fresh_below_evicted_at_deadline "t" ⟨true, []⟩ 2 2 [CEvent.tick]
    (by decide)
  ⟨h.1 (by decide), h.2 (by decide)⟩

/-! ### Claim C3: a stale fired timer and a later Store -/

/-- C3: the claim fails on the code.  In the interleaving where the first
`Store`'s timer fires at its deadline and its eviction body is delayed
(waiting for the lock) while a second `Store` for the same key runs, the
second `Store`'s `Stop` of the already-fired timer has no effect, and the
stale eviction body then deletes the entry written by the later `Store`
(and the later store's pending-timer registration with it).  The trace
below evaluates the embedded `cache.go` semantics on exactly that
interleaving. -/
theorem c3_stale_timer_evicts_newer_entry :
    getVal (runCache (initCache : CacheM Core.Result)
      [CEvent.store "tok" ⟨false, []⟩ 1, CEvent.tick, CEvent.fire 0,
       CEvent.store "tok" ⟨true, []⟩ 5]).results "tok" = some ⟨true, []⟩ ∧
    getVal (runCache (initCache : CacheM Core.Result)
      [CEvent.store "tok" ⟨false, []⟩ 1, CEvent.tick, CEvent.fire 0,
       CEvent.store "tok" ⟨true, []⟩ 5, CEvent.runEvict 0]).results "tok" = none ∧
    (runCache (initCache : CacheM Core.Result)
      [CEvent.store "tok" ⟨false, []⟩ 1, CEvent.tick, CEvent.fire 0,
       CEvent.store "tok" ⟨true, []⟩ 5, CEvent.runEvict 0]).expiry = [] :=
  ⟨rfl, rfl, rfl⟩
